import Mathlib

/-!
Verification development for the pylauncher repository.

Two source artefacts are embedded here:

* the menu filtering engine of `launcher.py` (`LauncherMenu.filterMenu`),
  modelled over the tree of menu actions the Qt layer builds from a
  `LauncherMenuModel`;
* the menu-model builder of `src/launcher_model.py`
  (`launcher_menu_model.parse_menu_json`, `check_item_format_json`,
  `launcher_cmd_item.__init__` and friends), modelled over already
  JSON-decoded documents.

Machine-level / library behaviour that the source relies on (Python string
containment, `str.strip`, `str.format`, `pyparsing.nestedExpr`, dict
truthiness) is embedded explicitly below, each with a note on the fragment
of the library semantics it covers.
-/

namespace Pylauncher

/-! ### Python string helpers -/

/-- Models Python's `needle in hay` prefix test over char lists. -/
def isPrefixL : List Char → List Char → Bool
  | [], _ => true
  | _ :: _, [] => false
  | a :: as, b :: bs => a == b && isPrefixL as bs

/-- Substring containment over char lists: some suffix of `hay` starts
with `needle`. -/
def containsL (nd : List Char) : List Char → Bool
  | [] => isPrefixL nd []
  | c :: cs => isPrefixL nd (c :: cs) || containsL nd cs

/-- Models Python's substring test `needle in hay` used by
`filterMenu` (`filterTerm in _widget.text()`). -/
def pyIn (needle hay : String) : Bool := containsL needle.data hay.data

/-- Python whitespace characters relevant to `str.strip` and to
`pyparsing` token separation (space, tab, newline, carriage return). -/
def isPySpace (c : Char) : Bool := c == ' ' || c == '\t' || c == '\n' || c == '\r'

/-- Models Python's `str.strip()`: drop leading and trailing whitespace. -/
def pyStrip (s : String) : String :=
  String.mk (((s.data.dropWhile isPySpace).reverse.dropWhile isPySpace).reverse)

/-! ### Filter engine (`launcher.py`, `LauncherMenu.filterMenu`)

One visual menu node is a list of actions.  The Qt object holds, at index
0, an always-present control item (detach button or search widget) which
the loop `for action in self.actions()[1:...]` skips; the lists below
model exactly the filtered tail `actions()[1:]`.  Each action is either a
`LauncherMenuWidgetAction` wrapping a command button, submenu button or
title label, or a bare `LauncherSeparator` `QAction` (which wraps no
widget).  Visibility is the transient per-action flag that
`setVisibility` writes. -/

inductive FNode : Type where
  | cmd   (text : String) (vis : Bool)
  | sub   (text : String) (children : List FNode) (vis : Bool)
  | title (text : String) (vis : Bool)
  | sep   (vis : Bool)

/-- The runtime class of the widget held by the most recent
`LauncherMenuWidgetAction` seen by the loop: the loop variables `_widget`
and `_type` are only reassigned on widget actions, so separators observe
the previous widget's class and text (stale values). -/
inductive StaleW : Type where
  | cmdW (text : String)
  | menuW
  | titleW
deriving DecidableEq

/-- Ways the loop body of `filterMenu` can raise instead of returning:
`unboundLocal` models Python's `UnboundLocalError` when `_type` is read
before any widget action assigned it; `attributeError` models the
`AttributeError` raised by `action.defaultWidget()` on a bare
`LauncherSeparator` `QAction` in the `LauncherMenuButton` branch. -/
inductive FErr : Type where
  | unboundLocal
  | attributeError
deriving DecidableEq

/-- The loop of `filterMenu` for a non-empty filter term, processed
head-first.  Returns the actions with updated visibility, the `_hasVisible`
accumulator, and the number of counted-visible items occurring before the
first action that takes the title branch (this is the `_visible_count`
value with which a pending `_last_title` preceding this list is finally
shown or hidden; the per-iteration `_last_title.setVisibility` at the end
of the loop body is overwritten by each later iteration, so only the value
at the next title boundary or at the end of the sequence survives). -/
def filterActions (term : String) : Option StaleW → List FNode → Except FErr (List FNode × Bool × Nat)
  | _, [] => .ok ([], false, 0)
  | _, .title t _ :: rest =>
      match filterActions term (some .titleW) rest with
      | .error e => .error e
      | .ok (out, hv, c) => .ok (.title t (c != 0) :: out, hv, 0)
  | _, .cmd t _ :: rest =>
      match filterActions term (some (.cmdW t)) rest with
      | .error e => .error e
      | .ok (out, hv, c) =>
          if pyIn term t then .ok (.cmd t true :: out, true, c + 1)
          else .ok (.cmd t false :: out, hv, c)
  | _, .sub t ch _ :: rest =>
      -- recursive call `_subMenu.filterMenu(filterTerm)`; every call of
      -- this function is made with the non-empty term of the enclosing
      -- `filterMenu` call, for which `filterMenu` reduces to this loop
      match filterActions term none ch with
      | .error e => .error e
      | .ok (chOut, subHv, _) =>
        match filterActions term (some .menuW) rest with
        | .error e => .error e
        | .ok (out, hv, c) =>
            .ok (.sub t chOut subHv :: out, subHv || hv, if subHv then c + 1 else c)
  | stale, .sep _ :: rest =>
      match stale with
      | none => .error .unboundLocal
      | some .titleW =>
          -- stale `_type == "LauncherMenuTitle"`: the separator takes the
          -- title branch and becomes the new `_last_title`
          match filterActions term (some .titleW) rest with
          | .error e => .error e
          | .ok (out, hv, c) => .ok (.sep (c != 0) :: out, hv, 0)
      | some .menuW => .error .attributeError
      | some (.cmdW t) =>
          match filterActions term (some (.cmdW t)) rest with
          | .error e => .error e
          | .ok (out, hv, c) =>
              if pyIn term t then .ok (.sep true :: out, true, c + 1)
              else .ok (.sep false :: out, hv, c)

/-- The empty-term branch `action.setVisibility(True)`: the action's own
flag is set; for a submenu action the child menu is not revisited. -/
def setVisibleTop : FNode → FNode
  | .cmd t _ => .cmd t true
  | .sub t ch _ => .sub t ch true
  | .title t _ => .title t true
  | .sep _ => .sep true

/-- `LauncherMenu.filterMenu`: empty term shows every action of this node
(without recursing into submenus) and leaves `_hasVisible` at its initial
`False`; a non-empty term runs the classification loop. -/
def filterMenu (actions : List FNode) (term : String) : Except FErr (List FNode × Bool) :=
  if term = "" then .ok (actions.map setVisibleTop, false)
  else
    match filterActions term none actions with
    | .error e => .error e
    | .ok (out, hv, _) => .ok (out, hv)

/-! ### JSON items and launcher configuration (`src/launcher_model.py`)

A configuration item is a JSON object; the fields the builder reads
(`type`, `text`, `file`, custom argument fields) are strings, so an item
is modelled as an association list with string values and first-match
lookup (JSON object keys are unique). -/

def Item : Type := List (String × String)

/-- Python `item.get(k)` / `item.get(k, None)`. -/
def Item.get (it : Item) (k : String) : Option String :=
  (it.find? (fun p => p.1 == k)).map (fun p => p.2)

/-- Python truthiness of `item.get(k)`: an absent key or a present key
with an empty-string value both test false. -/
def Item.truthy (it : Item) (k : String) : Option String :=
  match it.get k with
  | some v => if v = "" then none else some v
  | none => none

/-- A value of the per-platform launcher configuration object: the
`launcher_base` entry is a string, a custom item type maps to an object
with a `command` template and an `arg_flags` object. -/
inductive CfgVal : Type where
  | str (s : String)
  | table (command : String) (arg_flags : List (String × String))

def LauncherCfg : Type := List (String × CfgVal)

def cfgGet (cfg : LauncherCfg) (k : String) : Option CfgVal :=
  (cfg.find? (fun p => p.1 == k)).map (fun p => p.2)

/-- Python truthiness of `launcher_cfg.get(item_type)`: an empty string is
falsy; a custom-type table always carries its `command` entry, hence is a
non-empty dict and truthy. -/
def cfgTruthy (cfg : LauncherCfg) (k : String) : Option CfgVal :=
  match cfgGet cfg k with
  | some (.str s) => if s = "" then none else some (.str s)
  | some v => some v
  | none => none

/-- The `launcher_base` entry of the configuration (used unchecked by the
source; documents of interest have it set). -/
def cfgBase (cfg : LauncherCfg) : String :=
  match cfgGet cfg "launcher_base" with
  | some (.str s) => s
  | _ => ""

/-- `os.path.join(base, name)` for the path shapes the launcher uses. -/
def joinPath (base name : String) : String := base ++ "/" ++ name

/-! ### Template expansion (`launcher_cmd_item.__init__`)

The source parses `"{" + self.cmd + "}"` with
`pyparsing.nestedExpr('{', '}')` (whitespace-separated words, nested
brace groups; `parseString` matches a prefix of the input, and unmatched
openers raise `ParseException`), then fills a params dict keyed by
`arg[0]` of each top-level token, and finally runs `self.cmd.format(**params)`.
The model covers templates without quote characters (the parser's default
quoted-string handling is outside the modelled fragment) and `str.format`
replacement fields that are plain names (conversion `!`, format specs `:`
and attribute/index access are modelled as failures; no theorem below
depends on such templates). -/

inductive Tok : Type where
  | word (s : String)
  | group (ts : List Tok)

/-- Close the word being accumulated, if any, appending it to the current
group. -/
def flushWord (g : List Tok) (acc : List Char) : List Tok :=
  match acc with
  | [] => g
  | _ :: _ => g ++ [Tok.word (String.mk acc)]

/-- The nested-brace tokenizer, already inside the outermost group:
`cur` is the group being filled, `outers` the enclosing unfinished
groups, `acc` the word in progress.  Returns the content of the
outermost group when its closer is reached (the remaining input is
ignored, as `parseString` matches a prefix), and `none` when the input
ends with groups still open (`ParseException`). -/
def scanToks : List Tok → List (List Tok) → List Char → List Char → Option (List Tok)
  | _, _, _, [] => none
  | cur, outers, acc, c :: cs =>
      if c = '{' then scanToks [] (flushWord cur acc :: outers) [] cs
      else if c = '}' then
        match outers with
        | [] => some (flushWord cur acc)
        | o :: os => scanToks (o ++ [Tok.group (flushWord cur acc)]) os [] cs
      else if isPySpace c then scanToks (flushWord cur acc) outers [] cs
      else scanToks cur outers (acc ++ [c]) cs

/-- `pyparsing.nestedExpr('{','}').parseString("{" + cmd + "}")[0]`. -/
def parseNested (cmd : String) : Option (List Tok) :=
  scanToks [] [] [] (cmd.data ++ ['}'])

/-- `arg = arg[0]` in the params loop: the first character of a bare
word (Python string indexing), or the first element of a group, which
must itself be a word to serve as a dict key (`IndexError` on an empty
group, `TypeError` on a nested list key). -/
def tokKey : Tok → Option String
  | .word w =>
      match w.data with
      | [] => none
      | c :: _ => some (String.mk [c])
  | .group ts =>
      match ts with
      | [] => none
      | .word w :: _ => some w
      | .group _ :: _ => none

/-- First-match association lookup with a default, Python's
`arg_flags.get(arg, "")`. -/
def lookupD (l : List (String × String)) (k : String) (d : String) : String :=
  match l.find? (fun p => p.1 == k) with
  | some p => p.2
  | none => d

/-- The value stored for a key in the params dict:
`arg_flags.get(arg, "") + "\"" + item.get(arg) + "\""` when
`item.get(arg)` is truthy, else the empty string. -/
def paramValue (argFlags : List (String × String)) (item : Item) (key : String) : String :=
  match Item.truthy item key with
  | some v => lookupD argFlags key "" ++ "\"" ++ v ++ "\""
  | none => ""

/-- The params loop `for arg in args[0]`, accumulating dict entries
(most recent first, matching dict overwrite on duplicate keys). -/
def buildParams (argFlags : List (String × String)) (item : Item) :
    List Tok → List (String × String) → Option (List (String × String))
  | [], acc => some acc
  | t :: ts, acc =>
      match tokKey t with
      | none => none
      | some k => buildParams argFlags item ts ((k, paramValue argFlags item k) :: acc)

/-- Characters a modelled replacement-field name may contain: anything up
to the closing brace except the `str.format` control characters. -/
def isFieldChar (c : Char) : Bool :=
  !(c == '{' || c == '}' || c == ':' || c == '!' || c == '.' || c == '[')

/-- `str.format` field resolution against keyword arguments only: an
empty or all-digit name is a positional field (`IndexError`, no
positional arguments are passed), otherwise a keyword lookup
(`KeyError` when absent). -/
def fieldLookup (ps : List (String × String)) (nm : List Char) : Option String :=
  match nm with
  | [] => none
  | _ :: _ =>
      if nm.all (fun c => c.isDigit) then none
      else
        match ps.find? (fun p => p.1 == String.mk nm) with
        | some p => some p.2
        | none => none

/-- Scanner state for the `str.format` model: plain copying, just after
an opening or closing brace (to resolve doubled-brace escapes), or
inside a replacement field accumulating the name in reverse. -/
inductive FmtMode : Type where
  | copy
  | afterOpen
  | afterClose
  | inField (nmRev : List Char)

/-- `template.format(**params)` over the modelled fragment: doubled
braces escape, a lone closing brace and an unterminated field raise
`ValueError`, replacement fields are resolved via `fieldLookup`. -/
def pyFormatGo (ps : List (String × String)) : FmtMode → List Char → Option (List Char)
  | .copy, [] => some []
  | .afterOpen, [] => none
  | .afterClose, [] => none
  | .inField _, [] => none
  | .copy, c :: cs =>
      if c = '{' then pyFormatGo ps .afterOpen cs
      else if c = '}' then pyFormatGo ps .afterClose cs
      else (pyFormatGo ps .copy cs).map (fun r => c :: r)
  | .afterOpen, c :: cs =>
      if c = '{' then (pyFormatGo ps .copy cs).map (fun r => '{' :: r)
      else if c = '}' then none  -- empty field name: positional, IndexError
      else if isFieldChar c then pyFormatGo ps (.inField [c]) cs
      else none
  | .afterClose, c :: cs =>
      if c = '}' then (pyFormatGo ps .copy cs).map (fun r => '}' :: r)
      else none
  | .inField nm, c :: cs =>
      if c = '}' then
        match fieldLookup ps nm.reverse with
        | none => none
        | some v => (pyFormatGo ps .copy cs).map (fun r => v.data ++ r)
      else if isFieldChar c then pyFormatGo ps (.inField (c :: nm)) cs
      else none

/-- `template.format(**params)`. -/
def pyFormat (ps : List (String × String)) (s : String) : Option (List Char) :=
  pyFormatGo ps .copy s.data

/-- How the expansion in `launcher_cmd_item.__init__` can raise:
`parseException` from `pyparsing` (the spec's `TemplateError`),
`indexOrTypeError` from `arg[0]` in the params loop, `formatError` from
`str.format`.  All of them escape the constructor uncaught. -/
inductive TErr : Type where
  | parseException
  | indexOrTypeError
  | formatError
deriving DecidableEq

/-- The command string computed by `launcher_cmd_item.__init__` from the
configured template, the configured `arg_flags`, and the item's own
fields. -/
def launcher_cmd_item_cmd (command : String) (argFlags : List (String × String))
    (item : Item) : Except TErr String :=
  match parseNested command with
  | none => .error .parseException
  | some toks =>
      match buildParams argFlags item toks [] with
      | none => .error .indexOrTypeError
      | some ps =>
          match pyFormat ps command with
          | none => .error .formatError
          | some out => .ok (String.mk out)

/-! ### Menu model builder (`launcher_menu_model.parse_menu_json`)

Documents are modelled after `json.loads` has succeeded: a document has
the `menu-title` object, the `file-choice` list and the `menu` list (an
absent key defaults to the empty object / list as in the source's
`menu.get(..., dict()/list())`).  `open_launcher_file` is modelled by an
environment mapping each resolvable path to its (already decoded)
document; `none` is the `IOError` case.  The item `trace` bookkeeping and
the basename/extension processing of default menu titles are not
modelled (no claim concerns them).  Recursion into submenu documents is
bounded by explicit fuel: the source has no cycle detection and recurses
unboundedly on self-referencing documents (a known gap), which the model
surfaces as the `fuelOut` outcome. -/

structure MenuDoc : Type where
  menuTitle : Item
  fileChoice : List Item
  menu : List Item

def Env : Type := String → Option MenuDoc

mutual
/-- One built menu item (`launcher_menu_model_item` subclasses): command,
separator, title, submenu reference, or file-choice (root switch).  The
stored `text` is the raw `item.get("text", None)`. -/
inductive MItem : Type where
  | cmdI : Option String → String → MItem
  | sepI : MItem
  | titleI : Option String → MItem
  | subI : Option String → MModel → MItem
  | choiceI : Option String → String → MItem

/-- A built `launcher_menu_model`: level, main title, `menu_items`,
`file_choices`. -/
inductive MModel : Type where
  | mk : Nat → String → List MItem → List MItem → MModel
end

def MModel.level : MModel → Nat
  | .mk l _ _ _ => l

def MModel.mainTitle : MModel → String
  | .mk _ t _ _ => t

def MModel.menuItems : MModel → List MItem
  | .mk _ _ its _ => its

def MModel.fileChoices : MModel → List MItem
  | .mk _ _ _ cs => cs

/-- Fatal outcomes of a parse (`logging.error` + `sys.exit`, or an
uncaught exception escaping the constructor calls). -/
inductive PErr : Type where
  | emptyMenu
  | missingParam (param : String)
  | attributeError
  | templateError (e : TErr)
  | fuelOut
deriving DecidableEq

/-- Warnings logged during a parse (`logging.warning` + skip). -/
inductive Warn : Type where
  | fileChoiceNotFound (file : String)
  | subMenuNotFound (file : String)
  | unknownType (t : String)
deriving DecidableEq

/-- `launcher_menu_model.check_item_format_json`: walk the mandatory keys
in order and abort on the first whose value in the item tests false
(absent, or present with a falsy value such as the empty string). -/
def check_item_format_json (item : Item) : List String → Except PErr Unit
  | [] => .ok ()
  | p :: ps =>
      match Item.truthy item p with
      | none => .error (.missingParam p)
      | some _ => check_item_format_json item ps

/-- One entry of the `file-choice` loop: mandatory-field check (fatal on
failure), then existence check of the referenced file — resolvable gives
a `launcher_file_choice_item`, unresolvable logs a warning and skips. -/
def processChoice (env : Env) (cfg : LauncherCfg) (view : Item) :
    Except PErr (Option MItem × List Warn) :=
  match check_item_format_json view ["text", "file"] with
  | .error e => .error e
  | .ok _ =>
      let fileName := pyStrip ((Item.get view "file").getD "")
      match env (joinPath (cfgBase cfg) fileName) with
      | some _ => .ok (some (.choiceI (Item.get view "text") fileName), [])
      | none => .ok (none, [.fileChoiceNotFound fileName])

/-- The `file-choice` loop over the whole list, in source order. -/
def processChoices (env : Env) (cfg : LauncherCfg) :
    List Item → Except PErr (List MItem × List Warn)
  | [] => .ok ([], [])
  | v :: vs =>
      match processChoice env cfg v with
      | .error e => .error e
      | .ok (mi, ws) =>
          match processChoices env cfg vs with
          | .error e => .error e
          | .ok (mis, ws') =>
              .ok ((match mi with | some m => m :: mis | none => mis), ws ++ ws')

/-- One entry of the `menu` loop, dispatching on `item.get("type", "")`.
The first test is `if launcher_cfg.get(item_type):` — a truthy hit on
*any* configuration key takes the custom-command branch, so an entry
typed `"launcher_base"` reaches `item_cfg.get("command")` on a string
and raises `AttributeError`.  `recur` is the recursive
`launcher_menu_model` construction for a resolvable submenu file;
`IOError` on opening the submenu file is caught, warned about and the
entry skipped (`menu_item` stays `None`). -/
def processItem (recur : String → MenuDoc → Except PErr (MModel × List Warn))
    (env : Env) (cfg : LauncherCfg) (item : Item) :
    Except PErr (Option MItem × List Warn) :=
  let itemType := (Item.get item "type").getD ""
  match cfgTruthy cfg itemType with
  | some (.str _) => .error .attributeError
  | some (.table command argFlags) =>
      match launcher_cmd_item_cmd command argFlags item with
      | .error e => .error (.templateError e)
      | .ok cmdStr => .ok (some (.cmdI (Item.get item "text") cmdStr), [])
  | none =>
      if itemType = "menu" then
        match check_item_format_json item ["text", "file"] with
        | .error e => .error e
        | .ok _ =>
            let fileName := pyStrip ((Item.get item "file").getD "")
            match env (joinPath (cfgBase cfg) fileName) with
            | none => .ok (none, [.subMenuNotFound fileName])
            | some subDoc =>
                match recur fileName subDoc with
                | .error e => .error e
                | .ok (subModel, ws) =>
                    .ok (some (.subI (Item.get item "text") subModel), ws)
      else if itemType = "title" then
        match check_item_format_json item ["text"] with
        | .error e => .error e
        | .ok _ => .ok (some (.titleI (Item.get item "text")), [])
      else if itemType = "separator" then .ok (some .sepI, [])
      else .ok (none, [.unknownType itemType])

/-- The `menu` loop over the whole list, in source order; a produced item
is appended, a skipped entry contributes only its warning. -/
def processItems (recur : String → MenuDoc → Except PErr (MModel × List Warn))
    (env : Env) (cfg : LauncherCfg) : List Item → Except PErr (List MItem × List Warn)
  | [] => .ok ([], [])
  | it :: rest =>
      match processItem recur env cfg it with
      | .error e => .error e
      | .ok (mi, ws) =>
          match processItems recur env cfg rest with
          | .error e => .error e
          | .ok (mis, ws') =>
              .ok ((match mi with | some m => m :: mis | none => mis), ws ++ ws')

/-- `launcher_menu_model.parse_menu_json` on a decoded document: main
title (document title text if truthy, else the document's name),
`file-choice` processing, the fatal empty-`menu` check, then the item
loop; submenus recurse at `level + 1` with one unit of fuel consumed. -/
def parse_menu_json : Nat → Env → LauncherCfg → Nat → String → MenuDoc →
    Except PErr (MModel × List Warn)
  | 0, _, _, _, _, _ => .error .fuelOut
  | fuel + 1, env, cfg, level, docName, doc =>
      let mainTitle := (Item.truthy doc.menuTitle "text").getD docName
      match processChoices env cfg doc.fileChoice with
      | .error e => .error e
      | .ok (choices, ws1) =>
          if doc.menu.isEmpty then .error .emptyMenu
          else
            match processItems (fun nm d => parse_menu_json fuel env cfg (level + 1) nm d)
                env cfg doc.menu with
            | .error e => .error e
            | .ok (items, ws2) => .ok (.mk level mainTitle items choices, ws1 ++ ws2)

/-! ### Derived definitions used by the statements below -/

/-- The item produced for one `menu` entry, `none` when the entry is
skipped or fatal. -/
def builtItem (recur : String → MenuDoc → Except PErr (MModel × List Warn))
    (env : Env) (cfg : LauncherCfg) (it : Item) : Option MItem :=
  match processItem recur env cfg it with
  | .ok (mi, _) => mi
  | .error _ => none

/-- The file-choice item produced for one `file-choice` entry, `none`
when skipped or fatal. -/
def builtChoice (env : Env) (cfg : LauncherCfg) (v : Item) : Option MItem :=
  match processChoice env cfg v with
  | .ok p => p.1
  | .error _ => none

/-- Whether an action is a title label. -/
def isTitleN : FNode → Bool
  | .title _ _ => true
  | _ => false

/-- The visibility flag of an action. -/
def nodeVis : FNode → Bool
  | .cmd _ v => v
  | .sub _ _ v => v
  | .title _ v => v
  | .sep v => v

/-- Whether an action is a command or submenu button. -/
def isActionable : FNode → Bool
  | .cmd _ _ => true
  | .sub _ _ _ => true
  | _ => false

/-- Index of the first title in a sibling sequence (`length` when there
is none): the extent of the group a pending title spans. -/
def firstTitleIdx (l : List FNode) : Nat := l.findIdx isTitleN

/-- Spec-side description of a command template as alternating literal
and placeholder segments; `renderSegs` produces the concrete template
string handed to `launcher_cmd_item`, so theorems quantifying over
segment lists quantify over all templates of this shape. -/
inductive Seg : Type where
  | lit (s : String)
  | ph (name : String)

def renderSeg : Seg → String
  | .lit s => s
  | .ph n => "\x7b" ++ n ++ "\x7d"

def renderSegs : List Seg → String
  | [] => ""
  | s :: rest => renderSeg s ++ renderSegs rest

/-- The expansion the spec promises for one segment: literals verbatim, a
supplied placeholder becomes its flag followed by the double-quoted
value, an unsupplied one becomes empty. -/
def expandSeg (argFlags : List (String × String)) (item : Item) : Seg → String
  | .lit s => s
  | .ph n => paramValue argFlags item n

def expandedSegs (argFlags : List (String × String)) (item : Item) : List Seg → String
  | [] => ""
  | s :: rest => expandSeg argFlags item s ++ expandedSegs argFlags item rest

/-- Characters a modelled literal segment may contain: no braces, and no
quote characters (the parser's quoted-string handling is outside the
modelled fragment). -/
def isLitChar (c : Char) : Bool :=
  !(c == '{' || c == '}' || c == '"' || c == '\'')

/-- Characters a modelled placeholder name may contain: literal
characters that are not whitespace (the name must be a single parser
word) and not `str.format` control characters. -/
def isNameChar (c : Char) : Bool :=
  isLitChar c && !isPySpace c && isFieldChar c

def segWF : Seg → Bool
  | .lit s => s.data.all isLitChar
  | .ph n => n.data.all isNameChar && !n.data.isEmpty && !n.data.all (fun c => c.isDigit)

/-- Well-formedness of a segment list. -/
def segsWF (segs : List Seg) : Bool := segs.all segWF

/-- The names of the placeholders of a template. -/
def phNames : List Seg → List String
  | [] => []
  | .lit _ :: r => phNames r
  | .ph n :: r => n :: phNames r

/-- Token well-shapedness as produced for well-formed templates: words
are non-empty, groups are singleton words. -/
def goodTok : Tok → Bool
  | .word w => !w.data.isEmpty
  | .group ts =>
      match ts with
      | [Tok.word _] => true
      | _ => false

/-- What the tokenizer accumulates over a brace-free character sequence:
whitespace closes the pending word, other characters extend it. -/
def litToks (g : List Tok) (acc : List Char) : List Char → (List Tok × List Char)
  | [] => (g, acc)
  | c :: cs =>
      if isPySpace c then litToks (flushWord g acc) [] cs
      else litToks g (acc ++ [c]) cs

/-- What the tokenizer accumulates over a rendered segment list. -/
def segsToks (g : List Tok) (acc : List Char) : List Seg → (List Tok × List Char)
  | [] => (g, acc)
  | .lit s :: rest =>
      segsToks (litToks g acc s.data).1 (litToks g acc s.data).2 rest
  | .ph n :: rest =>
      segsToks (flushWord g acc ++ [Tok.group [Tok.word n]]) [] rest

/-- Number of opening braces in a character list. -/
def opensCount (l : List Char) : Nat := l.count '{'

/-- Number of closing braces in a character list. -/
def closesCount (l : List Char) : Nat := l.count '}'

/-- Balanced braces in the usual sense: no prefix has an excess of
closers, and openers and closers agree in total. -/
def braceBalanced (s : String) : Bool :=
  (List.range (s.data.length + 1)).all
    (fun k => decide (closesCount (s.data.take k) ≤ opensCount (s.data.take k))) &&
  decide (opensCount s.data = closesCount s.data)

/-- The template has an opening brace that is never closed: no prefix has
an excess of closers, and openers are in excess overall.  (This is the
condition under which the nested-brace parse of `"{" + cmd + "}"` runs
out of input: an excess closer instead just ends the parse early, as
`parseString` matches a prefix.) -/
def unclosedOpenBrace (s : String) : Bool :=
  (List.range (s.data.length + 1)).all
    (fun k => decide (closesCount (s.data.take k) ≤ opensCount (s.data.take k))) &&
  decide (closesCount s.data < opensCount s.data)

/-! ## Theorems -/

/-- C10: `check_item_format_json` aborts the build exactly when some
listed mandatory key's value in the item is falsy — a key present with a
falsy value (such as the empty string) is treated exactly like an absent
key, and the check passes otherwise. -/
theorem c10_mandatory_field_falsy (item : Item) (ps : List String) :
    (∃ e, check_item_format_json item ps = .error e) ↔
      ∃ p ∈ ps, Item.truthy item p = none := by
  induction ps with
  | nil => simp [check_item_format_json]
  | cons p ps ih =>
      cases h : Item.truthy item p with
      | none =>
          simp only [check_item_format_json, h]
          exact ⟨fun _ => ⟨p, by simp, h⟩, fun _ => ⟨.missingParam p, rfl⟩⟩
      | some v =>
          simp only [check_item_format_json, h, ih]
          constructor
          · rintro ⟨q, hq, hqn⟩; exact ⟨q, by simp [hq], hqn⟩
          · rintro ⟨q, hq, hqn⟩
            rcases List.mem_cons.mp hq with rfl | hq'
            · simp [h] at hqn
            · exact ⟨q, hq', hqn⟩

/-- C5 counterexample: a document whose non-empty `menu` list consists of
a single unknown-typed entry builds successfully, constructing a
`MModel` with zero items. -/
theorem c5_counterexample :
    parse_menu_json 1 (fun _ => none) [("launcher_base", .str "b")] 0 "root"
        (MenuDoc.mk [] [] [[("type", "bogus"), ("text", "x")]]) =
      .ok (.mk 0 "root" [] [], [.unknownType "bogus"]) ∧
    (MModel.mk 0 "root" [] []).menuItems = [] := ⟨rfl, rfl⟩

/-- C5 (amended): a document with an empty or absent `menu` list fails
fatally with `EmptyMenu`, provided the preceding `file-choice`
processing raised no fatal error of its own. -/
theorem c5_empty_menu_fatal (fuel level : Nat) (env : Env) (cfg : LauncherCfg)
    (nm : String) (doc : MenuDoc) (r : List MItem × List Warn)
    (hmenu : doc.menu = [])
    (hch : processChoices env cfg doc.fileChoice = .ok r) :
    parse_menu_json (fuel + 1) env cfg level nm doc = .error .emptyMenu := by
  obtain ⟨cs, ws⟩ := r
  simp [parse_menu_json, hch, hmenu]

theorem c5_empty_menu_fatal_witness :
    (MenuDoc.mk [] [] []).menu = [] ∧
    parse_menu_json 1 (fun _ => none) [] 0 "root" (MenuDoc.mk [] [] []) =
      .error .emptyMenu :=
  ⟨rfl, c5_empty_menu_fatal 0 0 (fun _ => none) [] "root" (MenuDoc.mk [] [] [])
    ([], []) rfl rfl⟩

/-- C6 counterexample: the entry type `"launcher_base"` names the base
path string of the launcher configuration, not a custom-command table,
and is none of `menu`/`title`/`separator`; yet the build of a document
containing such an entry aborts with an `AttributeError` crash instead
of logging a warning and skipping the entry. -/
theorem c6_counterexample :
    cfgGet [("launcher_base", CfgVal.str "b")] "launcher_base" = some (.str "b") ∧
    ("launcher_base" ≠ "menu" ∧ "launcher_base" ≠ "title" ∧
      "launcher_base" ≠ "separator") ∧
    parse_menu_json 1 (fun _ => none) [("launcher_base", .str "b")] 0 "root"
        (MenuDoc.mk [] [] [[("type", "launcher_base")]]) =
      .error .attributeError :=
  ⟨rfl, ⟨by decide, by decide, by decide⟩, rfl⟩

/-- C6 (amended): an entry whose type tests falsy in the launcher
configuration mapping and is none of `menu`/`title`/`separator` is
skipped with an `unknownType` warning, and processing of the remaining
entries continues unchanged.  (An entry whose type names a non-table
configuration key, such as `launcher_base`, instead crashes the build.) -/
theorem c6_unknown_type_skipped
    (recur : String → MenuDoc → Except PErr (MModel × List Warn))
    (env : Env) (cfg : LauncherCfg) (item : Item) (rest : List Item)
    (ht : cfgTruthy cfg ((Item.get item "type").getD "") = none)
    (h1 : (Item.get item "type").getD "" ≠ "menu")
    (h2 : (Item.get item "type").getD "" ≠ "title")
    (h3 : (Item.get item "type").getD "" ≠ "separator") :
    processItem recur env cfg item =
      .ok (none, [.unknownType ((Item.get item "type").getD "")]) ∧
    processItems recur env cfg (item :: rest) =
      (processItems recur env cfg rest).map
        (fun p => (p.1, .unknownType ((Item.get item "type").getD "") :: p.2)) := by
  have hpi : processItem recur env cfg item =
      .ok (none, [.unknownType ((Item.get item "type").getD "")]) := by
    simp [processItem, ht, h1, h2, h3]
  refine ⟨hpi, ?_⟩
  cases hr : processItems recur env cfg rest with
  | error e => simp [processItems, hpi, hr, Except.map]
  | ok p =>
      obtain ⟨mis, ws⟩ := p
      simp [processItems, hpi, hr, Except.map]

theorem c6_unknown_type_skipped_witness :
    cfgTruthy [("launcher_base", CfgVal.str "b")]
        ((Item.get [("type", "frobnicate")] "type").getD "") = none ∧
    processItems (fun _ _ => .error .fuelOut) (fun _ => none)
        [("launcher_base", CfgVal.str "b")]
        [[("type", "frobnicate")], [("type", "separator")]] =
      .ok ([.sepI], [.unknownType "frobnicate"]) := by
  refine ⟨rfl, ?_⟩
  have h := c6_unknown_type_skipped (fun _ _ => .error .fuelOut) (fun _ => none)
    [("launcher_base", CfgVal.str "b")] [("type", "frobnicate")]
    [[("type", "separator")]] rfl (by decide) (by decide) (by decide)
  rw [h.2]
  rfl

/-- C1 (code divergence): filtering with the empty term sets every action
of the node visible but leaves `_hasVisible` at its initial `False`, so
the call returns false even when a visible command item is present
(contradicting the method's docstring), and it does not recurse into
submenus, whose children keep their previous visibility. -/
theorem c1_empty_term_behavior :
    filterMenu [FNode.cmd "Foo" false] "" = .ok ([FNode.cmd "Foo" true], false) ∧
    filterMenu [FNode.sub "S" [FNode.cmd "Bar" false] false] "" =
      .ok ([FNode.sub "S" [FNode.cmd "Bar" false] true], false) := ⟨rfl, rfl⟩

/-- The `menu` item loop is compositional: entries are processed
independently, items and warnings concatenating in order. -/
theorem processItems_append
    (recur : String → MenuDoc → Except PErr (MModel × List Warn))
    (env : Env) (cfg : LauncherCfg) (xs ys : List Item) :
    processItems recur env cfg (xs ++ ys) =
      (processItems recur env cfg xs).bind (fun a =>
        (processItems recur env cfg ys).map (fun b => (a.1 ++ b.1, a.2 ++ b.2))) := by
  induction xs with
  | nil =>
      cases h : processItems recur env cfg ys with
      | error e => simp [processItems, h, Except.bind, Except.map]
      | ok b => simp [processItems, h, Except.bind, Except.map]
  | cons x xs ih =>
      cases hx : processItem recur env cfg x with
      | error e => simp [processItems, hx, Except.bind]
      | ok a =>
          obtain ⟨mi, ws⟩ := a
          cases hxs : processItems recur env cfg xs with
          | error e =>
              cases hys : processItems recur env cfg ys with
              | error e2 =>
                  simp [processItems, hx, hxs, ih, hys, Except.bind, Except.map]
              | ok b => simp [processItems, hx, hxs, ih, hys, Except.bind, Except.map]
          | ok p =>
              obtain ⟨mis, ws2⟩ := p
              cases hys : processItems recur env cfg ys with
              | error e2 =>
                  simp [processItems, hx, hxs, ih, hys, Except.bind, Except.map]
              | ok b =>
                  obtain ⟨mis2, ws3⟩ := b
                  cases mi <;>
                    simp [processItems, hx, hxs, ih, hys, Except.bind, Except.map]

/-- A well-formed `menu`-typed entry whose file does not resolve is
skipped with a warning. -/
theorem processItem_menu_unresolvable
    (recur : String → MenuDoc → Except PErr (MModel × List Warn))
    (env : Env) (cfg : LauncherCfg) (e : Item)
    (htype : (Item.get e "type").getD "" = "menu")
    (hcfg : cfgTruthy cfg "menu" = none)
    (hchk : check_item_format_json e ["text", "file"] = .ok ())
    (henv : env (joinPath (cfgBase cfg) (pyStrip ((Item.get e "file").getD ""))) = none) :
    processItem recur env cfg e =
      .ok (none, [.subMenuNotFound (pyStrip ((Item.get e "file").getD ""))]) := by
  simp [processItem, htype, hcfg, hchk, henv]

/-- C4: a document whose `menu` list contains a well-formed submenu entry
with an unresolvable file builds successfully: that entry alone is
omitted with one warning, while all sibling entries before and after it
are built in order, together with the file choices. -/
theorem c4_unresolvable_submenu_skipped (fuel level : Nat) (env : Env)
    (cfg : LauncherCfg) (nm : String) (doc : MenuDoc)
    (pre post : List Item) (e : Item)
    (choices i1 i2 : List MItem) (ws0 w1 w2 : List Warn)
    (hmenu : doc.menu = pre ++ e :: post)
    (htype : (Item.get e "type").getD "" = "menu")
    (hcfg : cfgTruthy cfg "menu" = none)
    (hchk : check_item_format_json e ["text", "file"] = .ok ())
    (henv : env (joinPath (cfgBase cfg) (pyStrip ((Item.get e "file").getD ""))) = none)
    (hch : processChoices env cfg doc.fileChoice = .ok (choices, ws0))
    (hpre : processItems (fun nm2 d => parse_menu_json fuel env cfg (level + 1) nm2 d)
        env cfg pre = .ok (i1, w1))
    (hpost : processItems (fun nm2 d => parse_menu_json fuel env cfg (level + 1) nm2 d)
        env cfg post = .ok (i2, w2)) :
    parse_menu_json (fuel + 1) env cfg level nm doc =
      .ok (.mk level ((Item.truthy doc.menuTitle "text").getD nm) (i1 ++ i2) choices,
        ws0 ++ (w1 ++ (.subMenuNotFound (pyStrip ((Item.get e "file").getD "")) :: w2))) := by
  have he := processItem_menu_unresolvable
    (fun nm2 d => parse_menu_json fuel env cfg (level + 1) nm2 d) env cfg e
    htype hcfg hchk henv
  have hcons : processItems (fun nm2 d => parse_menu_json fuel env cfg (level + 1) nm2 d)
      env cfg (e :: post) =
      .ok (i2, .subMenuNotFound (pyStrip ((Item.get e "file").getD "")) :: w2) := by
    simp [processItems, he, hpost]
  have hitems : processItems (fun nm2 d => parse_menu_json fuel env cfg (level + 1) nm2 d)
      env cfg (pre ++ e :: post) =
      .ok (i1 ++ i2,
        w1 ++ (.subMenuNotFound (pyStrip ((Item.get e "file").getD "")) :: w2)) := by
    rw [processItems_append, hpre, hcons]
    simp [Except.bind, Except.map]
  have hne : (pre ++ e :: post).isEmpty = false := by cases pre <;> rfl
  simp [parse_menu_json, hch, hmenu, hne, hitems]

theorem c4_unresolvable_submenu_skipped_witness :
    parse_menu_json 2 (fun _ => none) [("launcher_base", .str "b")] 0 "root"
      (MenuDoc.mk [] [] [[("type", "title"), ("text", "Group")],
                          [("type", "separator")],
                          [("type", "menu"), ("text", "Sub"), ("file", "sub.json")]]) =
    .ok (.mk 0 "root" [.titleI (some "Group"), .sepI] [],
         [.subMenuNotFound "sub.json"]) := by
  have h := c4_unresolvable_submenu_skipped 1 0 (fun _ => none)
    [("launcher_base", .str "b")] "root"
    (MenuDoc.mk [] [] [[("type", "title"), ("text", "Group")],
                        [("type", "separator")],
                        [("type", "menu"), ("text", "Sub"), ("file", "sub.json")]])
    [[("type", "title"), ("text", "Group")], [("type", "separator")]] []
    [("type", "menu"), ("text", "Sub"), ("file", "sub.json")]
    [] [.titleI (some "Group"), .sepI] [] [] [] []
    rfl rfl rfl rfl rfl rfl rfl rfl
  exact h

/-- Items of a successful item loop are exactly the per-entry build
results, in source order (skipped entries contribute nothing). -/
theorem processItems_filterMap
    (recur : String → MenuDoc → Except PErr (MModel × List Warn))
    (env : Env) (cfg : LauncherCfg) (l : List Item) (mis : List MItem) (ws : List Warn)
    (h : processItems recur env cfg l = .ok (mis, ws)) :
    mis = l.filterMap (builtItem recur env cfg) := by
  induction l generalizing mis ws with
  | nil =>
      simp [processItems] at h
      simp [h.1]
  | cons it rest ih =>
      cases hx : processItem recur env cfg it with
      | error e => simp [processItems, hx] at h
      | ok a =>
          obtain ⟨mi, ws1⟩ := a
          cases hr : processItems recur env cfg rest with
          | error e => simp [processItems, hx, hr] at h
          | ok p =>
              obtain ⟨mis2, ws2⟩ := p
              simp [processItems, hx, hr] at h
              have hb : builtItem recur env cfg it = mi := by simp [builtItem, hx]
              cases mi with
              | none => simp [List.filterMap_cons, hb, ← h.1, ih mis2 ws2 hr]
              | some m => simp [List.filterMap_cons, hb, ← h.1, ih mis2 ws2 hr]

/-- File choices of a successful choice loop are exactly the per-entry
results, in source order. -/
theorem processChoices_filterMap (env : Env) (cfg : LauncherCfg)
    (l : List Item) (mis : List MItem) (ws : List Warn)
    (h : processChoices env cfg l = .ok (mis, ws)) :
    mis = l.filterMap (builtChoice env cfg) := by
  induction l generalizing mis ws with
  | nil =>
      simp [processChoices] at h
      simp [h.1]
  | cons it rest ih =>
      cases hx : processChoice env cfg it with
      | error e => simp [processChoices, hx] at h
      | ok a =>
          obtain ⟨mi, ws1⟩ := a
          cases hr : processChoices env cfg rest with
          | error e => simp [processChoices, hx, hr] at h
          | ok p =>
              obtain ⟨mis2, ws2⟩ := p
              simp [processChoices, hx, hr] at h
              have hb : builtChoice env cfg it = mi := by simp [builtChoice, hx]
              cases mi with
              | none => simp [List.filterMap_cons, hb, ← h.1, ih mis2 ws2 hr]
              | some m => simp [List.filterMap_cons, hb, ← h.1, ih mis2 ws2 hr]

/-- C7: for every document whose build succeeds, the model's items are
the per-entry build results of the source `menu` array in exactly the
source order, and the file choices likewise preserve the order of the
source `file-choice` array. -/
theorem c7_order (fuel level : Nat) (env : Env) (cfg : LauncherCfg)
    (nm : String) (doc : MenuDoc) (m : MModel) (ws : List Warn)
    (h : parse_menu_json (fuel + 1) env cfg level nm doc = .ok (m, ws)) :
    m.menuItems = doc.menu.filterMap
        (builtItem (fun nm2 d => parse_menu_json fuel env cfg (level + 1) nm2 d) env cfg) ∧
    m.fileChoices = doc.fileChoice.filterMap (builtChoice env cfg) := by
  cases hch : processChoices env cfg doc.fileChoice with
  | error e => simp [parse_menu_json, hch] at h
  | ok p =>
      obtain ⟨choices, ws1⟩ := p
      cases hm : doc.menu.isEmpty with
      | true => simp [parse_menu_json, hch, hm] at h
      | false =>
          cases hit : processItems
              (fun nm2 d => parse_menu_json fuel env cfg (level + 1) nm2 d)
              env cfg doc.menu with
          | error e => simp [parse_menu_json, hch, hm, hit] at h
          | ok q =>
              obtain ⟨items, ws2⟩ := q
              simp [parse_menu_json, hch, hm, hit] at h
              rw [← h.1]
              exact ⟨processItems_filterMap _ env cfg doc.menu items ws2 hit,
                processChoices_filterMap env cfg doc.fileChoice choices ws1 hch⟩

theorem c7_order_witness :
    parse_menu_json 1 (fun _ => none) [("launcher_base", .str "b")] 0 "root"
      (MenuDoc.mk [] [[("text", "Expert"), ("file", "x.json")]]
        [[("type", "separator")], [("type", "title"), ("text", "T")]]) =
      .ok (.mk 0 "root" [.sepI, .titleI (some "T")] [], [.fileChoiceNotFound "x.json"]) ∧
    (MModel.mk 0 "root" [.sepI, .titleI (some "T")] []).menuItems =
      [[("type", "separator")], [("type", "title"), ("text", "T")]].filterMap
        (builtItem (fun nm2 d => parse_menu_json 0 (fun _ => none)
          [("launcher_base", .str "b")] 1 nm2 d) (fun _ => none)
          [("launcher_base", .str "b")]) := by
  refine ⟨rfl, ?_⟩
  exact (c7_order 0 0 (fun _ => none) [("launcher_base", .str "b")] "root"
    (MenuDoc.mk [] [[("text", "Expert"), ("file", "x.json")]]
      [[("type", "separator")], [("type", "title"), ("text", "T")]])
    (.mk 0 "root" [.sepI, .titleI (some "T")] []) [.fileChoiceNotFound "x.json"] rfl).1

/-- C9: a separator is never classified on its own.  With a non-empty
term: a node whose first filtered action is a separator makes the loop
read the unassigned `_type` and raise `UnboundLocalError`; a separator
right after a command is classified with the command's stale text — it
is shown and counted when the term occurs in that text (`_hasVisible`
also becomes true and at least the command and the separator are
counted), and hidden when it does not. -/
theorem c9_separator_stale_classification :
    (∀ (term : String) (v : Bool) (rest : List FNode), term ≠ "" →
      filterMenu (.sep v :: rest) term = .error .unboundLocal) ∧
    (∀ (term : String) (st : Option StaleW) (t : String) (vc vs : Bool)
        (rest out : List FNode) (hv : Bool) (c : Nat),
      pyIn term t = true →
      filterActions term st (.cmd t vc :: .sep vs :: rest) = .ok (out, hv, c) →
      out.take 2 = [.cmd t true, .sep true] ∧ hv = true ∧ 2 ≤ c) ∧
    (∀ (term : String) (st : Option StaleW) (t : String) (vc vs : Bool)
        (rest out : List FNode) (hv : Bool) (c : Nat),
      pyIn term t = false →
      filterActions term st (.cmd t vc :: .sep vs :: rest) = .ok (out, hv, c) →
      out.take 2 = [.cmd t false, .sep false]) := by
  refine ⟨?_, ?_, ?_⟩
  · intro term v rest hterm
    simp [filterMenu, hterm, filterActions]
  · intro term st t vc vs rest out hv c hm h
    cases hr : filterActions term (some (.cmdW t)) rest with
    | error e => simp [filterActions, hr] at h
    | ok p =>
        obtain ⟨out3, hv3, c3⟩ := p
        simp [filterActions, hr, hm] at h
        obtain ⟨hout, hhv, hc⟩ := h
        subst hout hhv hc
        simp
  · intro term st t vc vs rest out hv c hm h
    cases hr : filterActions term (some (.cmdW t)) rest with
    | error e => simp [filterActions, hr] at h
    | ok p =>
        obtain ⟨out3, hv3, c3⟩ := p
        simp [filterActions, hr, hm] at h
        obtain ⟨hout, hhv, hc⟩ := h
        subst hout
        simp

theorem c9_separator_stale_classification_witness :
    (("x" : String) ≠ "" ∧
      filterMenu [.sep true] "x" = .error .unboundLocal) ∧
    (pyIn "oo" "Foo" = true ∧
      ([FNode.cmd "Foo" true, FNode.sep true].take 2 =
          [FNode.cmd "Foo" true, FNode.sep true] ∧ true = true ∧ 2 ≤ 2)) ∧
    (pyIn "zz" "Foo" = false ∧
      [FNode.cmd "Foo" false, FNode.sep false].take 2 =
        [FNode.cmd "Foo" false, FNode.sep false]) := by
  refine ⟨⟨by decide, ?_⟩, ⟨by decide, ?_⟩, ⟨by decide, ?_⟩⟩
  · exact c9_separator_stale_classification.1 "x" true [] (by decide)
  · exact c9_separator_stale_classification.2.1 "oo" none "Foo" false false []
      [.cmd "Foo" true, .sep true] true 2
      (by decide) (by simp [filterActions, pyIn, containsL, isPrefixL])
  · exact c9_separator_stale_classification.2.2 "zz" none "Foo" true true []
      [.cmd "Foo" false, .sep false] false 0
      (by decide) (by simp [filterActions, pyIn, containsL, isPrefixL])

theorem firstTitleIdx_cons (a : FNode) (l : List FNode) :
    firstTitleIdx (a :: l) = if isTitleN a then 0 else firstTitleIdx l + 1 := by
  simp [firstTitleIdx, List.findIdx_cons, Bool.cond_eq_ite]

/-- A positive `_visible_count` exhibits a visible item before the first
title of the processed output. -/
theorem filterActions_count_pos_visible (term : String) (l : List FNode) :
    ∀ (st : Option StaleW) (out : List FNode) (hv : Bool) (c : Nat),
      filterActions term st l = .ok (out, hv, c) → c ≠ 0 →
      ∃ k nd, k < firstTitleIdx out ∧ out[k]? = some nd ∧ nodeVis nd = true := by
  induction l with
  | nil =>
      intro st out hv c h hc
      simp [filterActions] at h
      exact absurd h.2.2.symm hc
  | cons a rest ih =>
      intro st out hv c h hc
      cases a with
      | title t v =>
          cases hr : filterActions term (some .titleW) rest with
          | error e => simp [filterActions, hr] at h
          | ok p =>
              obtain ⟨out2, hv2, c2⟩ := p
              simp [filterActions, hr] at h
              exact absurd h.2.2.symm hc
      | cmd t v =>
          cases hr : filterActions term (some (.cmdW t)) rest with
          | error e => simp [filterActions, hr] at h
          | ok p =>
              obtain ⟨out2, hv2, c2⟩ := p
              cases hm : pyIn term t with
              | true =>
                  simp [filterActions, hr, hm] at h
                  refine ⟨0, .cmd t true, ?_, ?_, ?_⟩
                  · rw [← h.1]; simp [firstTitleIdx_cons, isTitleN]
                  · rw [← h.1]; simp
                  · simp [nodeVis]
              | false =>
                  simp [filterActions, hr, hm] at h
                  obtain ⟨h1, h2, h3⟩ := h
                  obtain ⟨k, nd, hk, hnd, hvis⟩ :=
                    ih (some (.cmdW t)) out2 hv2 c2 hr (h3 ▸ hc)
                  refine ⟨k + 1, nd, ?_, ?_, hvis⟩
                  · rw [← h1]; simp [firstTitleIdx_cons, isTitleN]; omega
                  · rw [← h1]; simpa using hnd
      | sub t ch v =>
          cases hch : filterActions term none ch with
          | error e => simp [filterActions, hch] at h
          | ok q =>
              obtain ⟨chOut, subHv, cs⟩ := q
              cases hr : filterActions term (some .menuW) rest with
              | error e => simp [filterActions, hch, hr] at h
              | ok p =>
                  obtain ⟨out2, hv2, c2⟩ := p
                  cases subHv with
                  | true =>
                      simp [filterActions, hch, hr] at h
                      refine ⟨0, .sub t chOut true, ?_, ?_, ?_⟩
                      · rw [← h.1]; simp [firstTitleIdx_cons, isTitleN]
                      · rw [← h.1]; simp
                      · simp [nodeVis]
                  | false =>
                      simp [filterActions, hch, hr] at h
                      obtain ⟨h1, h2, h3⟩ := h
                      obtain ⟨k, nd, hk, hnd, hvis⟩ :=
                        ih (some .menuW) out2 hv2 c2 hr (h3 ▸ hc)
                      refine ⟨k + 1, nd, ?_, ?_, hvis⟩
                      · rw [← h1]; simp [firstTitleIdx_cons, isTitleN]; omega
                      · rw [← h1]; simpa using hnd
      | sep v =>
          cases st with
          | none => simp [filterActions] at h
          | some sw =>
              cases sw with
              | titleW =>
                  cases hr : filterActions term (some .titleW) rest with
                  | error e => simp [filterActions, hr] at h
                  | ok p =>
                      obtain ⟨out2, hv2, c2⟩ := p
                      simp [filterActions, hr] at h
                      exact absurd h.2.2.symm hc
              | menuW => simp [filterActions] at h
              | cmdW t =>
                  cases hr : filterActions term (some (.cmdW t)) rest with
                  | error e => simp [filterActions, hr] at h
                  | ok p =>
                      obtain ⟨out2, hv2, c2⟩ := p
                      cases hm : pyIn term t with
                      | true =>
                          simp [filterActions, hr, hm] at h
                          refine ⟨0, .sep true, ?_, ?_, ?_⟩
                          · rw [← h.1]; simp [firstTitleIdx_cons, isTitleN]
                          · rw [← h.1]; simp
                          · simp [nodeVis]
                      | false =>
                          simp [filterActions, hr, hm] at h
                          obtain ⟨h1, h2, h3⟩ := h
                          obtain ⟨k, nd, hk, hnd, hvis⟩ :=
                            ih (some (.cmdW t)) out2 hv2 c2 hr (h3 ▸ hc)
                          refine ⟨k + 1, nd, ?_, ?_, hvis⟩
                          · rw [← h1]; simp [firstTitleIdx_cons, isTitleN]; omega
                          · rw [← h1]; simpa using hnd

/-- Conversely, when the sibling sequence does not start with a
separator taking over the pending-title role, a visible command or
submenu before the first title forces a positive `_visible_count`. -/
theorem filterActions_visible_count_pos (term : String) (l : List FNode) :
    ∀ (st : Option StaleW) (out : List FNode) (hv : Bool) (c : Nat),
      filterActions term st l = .ok (out, hv, c) →
      (∀ v, l.head? = some (.sep v) → st ≠ some .titleW) →
      ∀ k nd, k < firstTitleIdx out → out[k]? = some nd →
        isActionable nd = true → nodeVis nd = true → c ≠ 0 := by
  induction l with
  | nil =>
      intro st out hv c h hns k nd hk hnd hact hvis
      simp [filterActions] at h
      rw [h.1] at hnd
      simp at hnd
  | cons a rest ih =>
      intro st out hv c h hns k nd hk hnd hact hvis
      cases a with
      | title t v =>
          cases hr : filterActions term (some .titleW) rest with
          | error e => simp [filterActions, hr] at h
          | ok p =>
              obtain ⟨out2, hv2, c2⟩ := p
              simp [filterActions, hr] at h
              rw [← h.1] at hk
              simp [firstTitleIdx_cons, isTitleN] at hk
      | cmd t v =>
          cases hr : filterActions term (some (.cmdW t)) rest with
          | error e => simp [filterActions, hr] at h
          | ok p =>
              obtain ⟨out2, hv2, c2⟩ := p
              cases hm : pyIn term t with
              | true =>
                  simp [filterActions, hr, hm] at h
                  obtain ⟨h1, h2, h3⟩ := h
                  omega
              | false =>
                  simp [filterActions, hr, hm] at h
                  obtain ⟨h1, h2, h3⟩ := h
                  rw [← h1] at hk hnd
                  cases k with
                  | zero =>
                      simp at hnd
                      rw [← hnd] at hvis
                      simp [nodeVis] at hvis
                  | succ k2 =>
                      simp [firstTitleIdx_cons, isTitleN] at hk
                      simp at hnd
                      have hpos := ih (some (.cmdW t)) out2 hv2 c2 hr
                        (by intro v2 _ hst; cases hst) k2 nd (by omega) hnd hact hvis
                      omega
      | sub t ch v =>
          cases hch : filterActions term none ch with
          | error e => simp [filterActions, hch] at h
          | ok q =>
              obtain ⟨chOut, subHv, cs⟩ := q
              cases hr : filterActions term (some .menuW) rest with
              | error e => simp [filterActions, hch, hr] at h
              | ok p =>
                  obtain ⟨out2, hv2, c2⟩ := p
                  cases subHv with
                  | true =>
                      simp [filterActions, hch, hr] at h
                      obtain ⟨h1, h2, h3⟩ := h
                      omega
                  | false =>
                      simp [filterActions, hch, hr] at h
                      obtain ⟨h1, h2, h3⟩ := h
                      rw [← h1] at hk hnd
                      cases k with
                      | zero =>
                          simp at hnd
                          rw [← hnd] at hvis
                          simp [nodeVis] at hvis
                      | succ k2 =>
                          simp [firstTitleIdx_cons, isTitleN] at hk
                          simp at hnd
                          have hpos := ih (some .menuW) out2 hv2 c2 hr
                            (by intro v2 _ hst; cases hst) k2 nd (by omega) hnd hact hvis
                          omega
      | sep v =>
          cases st with
          | none => simp [filterActions] at h
          | some sw =>
              cases sw with
              | titleW => exact absurd rfl (hns v rfl)
              | menuW => simp [filterActions] at h
              | cmdW t =>
                  cases hr : filterActions term (some (.cmdW t)) rest with
                  | error e => simp [filterActions, hr] at h
                  | ok p =>
                      obtain ⟨out2, hv2, c2⟩ := p
                      cases hm : pyIn term t with
                      | true =>
                          simp [filterActions, hr, hm] at h
                          obtain ⟨h1, h2, h3⟩ := h
                          omega
                      | false =>
                          simp [filterActions, hr, hm] at h
                          obtain ⟨h1, h2, h3⟩ := h
                          rw [← h1] at hk hnd
                          cases k with
                          | zero =>
                              simp at hnd
                              rw [← hnd] at hact
                              simp [isActionable] at hact
                          | succ k2 =>
                              simp [firstTitleIdx_cons, isTitleN] at hk
                              simp at hnd
                              have hpos := ih (some (.cmdW t)) out2 hv2 c2 hr
                                (by intro v2 _ hst; cases hst) k2 nd (by omega) hnd hact hvis
                              omega

/-- C2 counterexample: in the node `[Title "A", Separator, Command "Foo"]`
filtered with `"Foo"`, the title is followed — before any further
title — by the visible command `"Foo"`, yet the title is hidden: the
separator directly after it takes over the pending-title role.  (The
separator itself ends up visible.) -/
theorem c2_counterexample :
    pyIn "Foo" "Foo" = true ∧
    filterMenu [.title "A" true, .sep true, .cmd "Foo" true] "Foo" =
      .ok ([.title "A" false, .sep true, .cmd "Foo" true], true) :=
  ⟨by decide, by simp [filterMenu, filterActions, pyIn, containsL, isPrefixL]⟩

/-- C2 (amended): for a non-empty term, a title all of whose following
siblings up to the next title are left hidden is itself hidden; and a
title that is not immediately followed by a separator and is followed,
before the next title, by a visible command or submenu item, is itself
visible.  (When a separator directly follows the title, the stale title
classification lets the separator take over the pending-title role and
the title is hidden regardless — see the counterexample.) -/
theorem c2_title_group_visibility (term : String) (st : Option StaleW)
    (t : String) (v : Bool) (tl out : List FNode) (hv : Bool) (c : Nat)
    (_hterm : term ≠ "")
    (h : filterActions term st (.title t v :: tl) = .ok (out, hv, c)) :
    ∃ outTl tvis,
      out = .title t tvis :: outTl ∧
      ((∀ k nd, k < firstTitleIdx outTl → outTl[k]? = some nd → nodeVis nd = false) →
        tvis = false) ∧
      (((∀ v2, tl.head? ≠ some (.sep v2)) ∧
          ∃ k nd, k < firstTitleIdx outTl ∧ outTl[k]? = some nd ∧
            isActionable nd = true ∧ nodeVis nd = true) →
        tvis = true) := by
  cases hr : filterActions term (some .titleW) tl with
  | error e => simp [filterActions, hr] at h
  | ok p =>
      obtain ⟨outTl, hv2, c2⟩ := p
      simp [filterActions, hr] at h
      obtain ⟨h1, h2, h3⟩ := h
      refine ⟨outTl, c2 != 0, h1.symm, ?_, ?_⟩
      · intro hall
        have hc2 : c2 = 0 := by
          by_contra hb
          obtain ⟨k, nd, hk, hnd, hvis⟩ :=
            filterActions_count_pos_visible term tl (some .titleW) outTl hv2 c2 hr hb
          have hhid := hall k nd hk hnd
          rw [hhid] at hvis
          cases hvis
        simpa using hc2
      · rintro ⟨hhead, k, nd, hk, hnd, hact, hvis⟩
        have hc2 : c2 ≠ 0 :=
          filterActions_visible_count_pos term tl (some .titleW) outTl hv2 c2 hr
            (fun v2 hv2' _ => absurd hv2' (hhead v2)) k nd hk hnd hact hvis
        simpa using hc2

theorem c2_title_group_visibility_witness :
    ∃ outTl tvis,
      ([FNode.title "A" true, FNode.cmd "ab" true] : List FNode) =
        .title "A" tvis :: outTl ∧
      ((∀ k nd, k < firstTitleIdx outTl → outTl[k]? = some nd → nodeVis nd = false) →
        tvis = false) ∧
      (((∀ v2, ([FNode.cmd "ab" false] : List FNode).head? ≠ some (.sep v2)) ∧
          ∃ k nd, k < firstTitleIdx outTl ∧ outTl[k]? = some nd ∧
            isActionable nd = true ∧ nodeVis nd = true) →
        tvis = true) :=
  c2_title_group_visibility "a" none "A" false [.cmd "ab" false]
    [.title "A" true, .cmd "ab" true] true 0 (by decide)
    (by simp [filterActions, pyIn, containsL, isPrefixL])

theorem string_mk_data (s : String) : String.mk s.data = s := rfl

theorem isLitChar_ne (c : Char) (h : isLitChar c = true) : c ≠ '{' ∧ c ≠ '}' := by
  simp [isLitChar] at h
  exact ⟨h.1.1.1, h.1.1.2⟩

theorem isFieldChar_ne (c : Char) (h : isFieldChar c = true) : c ≠ '{' ∧ c ≠ '}' := by
  simp [isFieldChar] at h
  exact ⟨h.1.1.1.1.1, h.1.1.1.1.2⟩

theorem isNameChar_spec (c : Char) (h : isNameChar c = true) :
    isFieldChar c = true ∧ isPySpace c = false ∧ c ≠ '{' ∧ c ≠ '}' := by
  simp [isNameChar] at h
  exact ⟨h.2, h.1.2, isLitChar_ne c h.1.1⟩

theorem scanToks_cons (cur : List Tok) (outers : List (List Tok)) (acc : List Char)
    (c : Char) (cs : List Char) :
    scanToks cur outers acc (c :: cs) =
      if c = '{' then scanToks [] (flushWord cur acc :: outers) [] cs
      else if c = '}' then
        match outers with
        | [] => some (flushWord cur acc)
        | o :: os => scanToks (o ++ [Tok.group (flushWord cur acc)]) os [] cs
      else if isPySpace c then scanToks (flushWord cur acc) outers [] cs
      else scanToks cur outers (acc ++ [c]) cs := by
  rw [scanToks.eq_def]

/-- Scanning a run of word characters extends the pending word. -/
theorem scanToks_word (w : List Char) :
    ∀ (cur : List Tok) (outs : List (List Tok)) (acc tail : List Char),
      (∀ c ∈ w, isPySpace c = false ∧ c ≠ '{' ∧ c ≠ '}') →
      scanToks cur outs acc (w ++ tail) = scanToks cur outs (acc ++ w) tail := by
  induction w with
  | nil => intro cur outs acc tail _; simp
  | cons c w ih =>
      intro cur outs acc tail h
      obtain ⟨hs, h1, h2⟩ := h c (by simp)
      simp only [List.cons_append]
      rw [scanToks_cons]
      simp only [h1, h2, hs, if_false, Bool.false_eq_true]
      rw [ih cur outs (acc ++ [c]) tail (fun d hd => h d (by simp [hd]))]
      simp

/-- Scanning a brace-free character run at the outer level accumulates
exactly what `litToks` computes. -/
theorem scanToks_lit (s : List Char) :
    ∀ (g : List Tok) (acc tail : List Char),
      (∀ c ∈ s, c ≠ '{' ∧ c ≠ '}') →
      scanToks g [] acc (s ++ tail) =
        scanToks (litToks g acc s).1 [] (litToks g acc s).2 tail := by
  induction s with
  | nil => intro g acc tail _; simp [litToks]
  | cons c s ih =>
      intro g acc tail h
      obtain ⟨h1, h2⟩ := h c (by simp)
      simp only [List.cons_append]
      rw [scanToks_cons, litToks]
      cases hs : isPySpace c with
      | true =>
          simp only [h1, h2, hs, if_false, if_true, Bool.false_eq_true]
          exact ih (flushWord g acc) [] tail (fun d hd => h d (by simp [hd]))
      | false =>
          simp only [h1, h2, hs, if_false, Bool.false_eq_true]
          exact ih g (acc ++ [c]) tail (fun d hd => h d (by simp [hd]))

/-- The tokenizer on a rendered well-formed template accumulates exactly
what `segsToks` computes, and succeeds when the closing brace of the
implicit outer group arrives. -/
theorem scanToks_renderSegs (segs : List Seg) :
    ∀ (g : List Tok) (acc : List Char),
      segsWF segs = true →
      scanToks g [] acc ((renderSegs segs).data ++ ['}']) =
        some (flushWord (segsToks g acc segs).1 (segsToks g acc segs).2) := by
  induction segs with
  | nil =>
      intro g acc _
      simp [renderSegs, segsToks, scanToks]
  | cons sg rest ih =>
      intro g acc hwf
      have hwf1 : segWF sg = true := by
        simp [segsWF] at hwf; exact hwf.1
      have hwf2 : segsWF rest = true := by
        simp [segsWF] at hwf ⊢; exact fun x hx => hwf.2 x hx
      cases sg with
      | lit s =>
          have hchars : ∀ c ∈ s.data, c ≠ '{' ∧ c ≠ '}' := by
            intro c hc
            simp [segWF] at hwf1
            exact isLitChar_ne c (hwf1 c hc)
          have hdata : (renderSegs (Seg.lit s :: rest)).data =
              s.data ++ (renderSegs rest).data := by
            simp [renderSegs, renderSeg, String.data_append]
          rw [hdata, List.append_assoc]
          rw [scanToks_lit s.data g acc ((renderSegs rest).data ++ ['}']) hchars]
          rw [ih _ _ hwf2]
          simp [segsToks]
      | ph n =>
          simp only [segWF, Bool.and_eq_true] at hwf1
          have hname : ∀ c ∈ n.data, isPySpace c = false ∧ c ≠ '{' ∧ c ≠ '}' := by
            intro c hc
            obtain ⟨hf, hs, hb⟩ :=
              isNameChar_spec c (by
                have := hwf1.1.1
                simp [List.all_eq_true] at this
                exact this c hc)
            exact ⟨hs, hb⟩
          have hne : n.data ≠ [] := by
            have := hwf1.1.2
            simpa using this
          have hdata : (renderSegs (Seg.ph n :: rest)).data =
              '{' :: (n.data ++ ('}' :: (renderSegs rest).data)) := by
            simp [renderSegs, renderSeg, String.data_append]
          rw [hdata]
          simp only [List.cons_append]
          rw [scanToks_cons]
          simp only [if_pos rfl]
          have hrearr : n.data ++ '}' :: (renderSegs rest).data ++ ['}'] =
              n.data ++ ('}' :: ((renderSegs rest).data ++ ['}'])) := by
            simp
          rw [hrearr, scanToks_word n.data [] [flushWord g acc] [] _ hname]
          rw [scanToks_cons]
          simp only [List.nil_append]
          rw [ih _ _ hwf2]
          have hfw : flushWord [] n.data = [Tok.word (String.mk n.data)] := by
            cases hd : n.data with
            | nil => exact absurd hd hne
            | cons a l => simp [flushWord, hd]
          simp [segsToks, hfw, string_mk_data]

theorem flushWord_extend (g : List Tok) (acc : List Char) :
    ∃ d, flushWord g acc = g ++ d := by
  cases acc with
  | nil => exact ⟨[], by simp [flushWord]⟩
  | cons a l => exact ⟨[Tok.word (String.mk (a :: l))], rfl⟩

theorem flushWord_mem (g : List Tok) (acc : List Char) (t : Tok) (ht : t ∈ g) :
    t ∈ flushWord g acc := by
  obtain ⟨d, hd⟩ := flushWord_extend g acc
  rw [hd]
  exact List.mem_append_left _ ht

theorem flushWord_all_good (g : List Tok) (acc : List Char)
    (hg : ∀ t ∈ g, goodTok t = true) : ∀ t ∈ flushWord g acc, goodTok t = true := by
  cases acc with
  | nil => simpa [flushWord] using hg
  | cons a l =>
      intro t ht
      simp only [flushWord] at ht
      rcases List.mem_append.mp ht with ht | ht
      · exact hg t ht
      · simp at ht
        subst ht
        simp [goodTok]

theorem litToks_all_good (s : List Char) :
    ∀ (g : List Tok) (acc : List Char), (∀ t ∈ g, goodTok t = true) →
      ∀ t ∈ (litToks g acc s).1, goodTok t = true := by
  induction s with
  | nil => intro g acc hg; simpa [litToks] using hg
  | cons c s ih =>
      intro g acc hg
      rw [litToks]
      cases hs : isPySpace c with
      | true =>
          simp only [hs, if_true]
          exact ih (flushWord g acc) [] (flushWord_all_good g acc hg)
      | false =>
          simp only [hs, Bool.false_eq_true, if_false]
          exact ih g (acc ++ [c]) hg

theorem litToks_extend (s : List Char) :
    ∀ (g : List Tok) (acc : List Char), ∃ d, (litToks g acc s).1 = g ++ d := by
  induction s with
  | nil => intro g acc; exact ⟨[], by simp [litToks]⟩
  | cons c s ih =>
      intro g acc
      rw [litToks]
      cases hs : isPySpace c with
      | true =>
          simp only [hs, if_true]
          obtain ⟨d0, hd0⟩ := flushWord_extend g acc
          obtain ⟨d, hd⟩ := ih (flushWord g acc) []
          exact ⟨d0 ++ d, by rw [hd, hd0, List.append_assoc]⟩
      | false =>
          simp only [hs, Bool.false_eq_true, if_false]
          exact ih g (acc ++ [c])

theorem segsToks_extend (segs : List Seg) :
    ∀ (g : List Tok) (acc : List Char), ∃ d, (segsToks g acc segs).1 = g ++ d := by
  induction segs with
  | nil => intro g acc; exact ⟨[], by simp [segsToks]⟩
  | cons sg rest ih =>
      intro g acc
      cases sg with
      | lit s =>
          rw [segsToks]
          obtain ⟨d1, hd1⟩ := litToks_extend s.data g acc
          obtain ⟨d2, hd2⟩ := ih (litToks g acc s.data).1 (litToks g acc s.data).2
          exact ⟨d1 ++ d2, by rw [hd2, hd1, List.append_assoc]⟩
      | ph n =>
          rw [segsToks]
          obtain ⟨d0, hd0⟩ := flushWord_extend g acc
          obtain ⟨d2, hd2⟩ := ih (flushWord g acc ++ [Tok.group [Tok.word n]]) []
          refine ⟨d0 ++ [Tok.group [Tok.word n]] ++ d2, ?_⟩
          rw [hd2, hd0]
          simp

theorem segsToks_all_good (segs : List Seg) :
    ∀ (g : List Tok) (acc : List Char), (∀ t ∈ g, goodTok t = true) →
      ∀ t ∈ flushWord (segsToks g acc segs).1 (segsToks g acc segs).2,
        goodTok t = true := by
  induction segs with
  | nil =>
      intro g acc hg
      simpa [segsToks] using flushWord_all_good g acc hg
  | cons sg rest ih =>
      intro g acc hg
      cases sg with
      | lit s =>
          rw [segsToks]
          exact ih _ _ (litToks_all_good s.data g acc hg)
      | ph n =>
          rw [segsToks]
          refine ih _ _ ?_
          intro t ht
          rcases List.mem_append.mp ht with ht | ht
          · exact flushWord_all_good g acc hg t ht
          · simp at ht
            subst ht
            simp [goodTok]

theorem segsToks_group_mem (segs : List Seg) :
    ∀ (g : List Tok) (acc : List Char) (n : String), n ∈ phNames segs →
      Tok.group [Tok.word n] ∈
        flushWord (segsToks g acc segs).1 (segsToks g acc segs).2 := by
  induction segs with
  | nil => intro g acc n hn; simp [phNames] at hn
  | cons sg rest ih =>
      intro g acc n hn
      cases sg with
      | lit s =>
          rw [segsToks]
          exact ih _ _ n (by simpa [phNames] using hn)
      | ph m =>
          rw [segsToks]
          simp only [phNames, List.mem_cons] at hn
          rcases hn with rfl | hn
          · obtain ⟨d, hd⟩ :=
              segsToks_extend rest (flushWord g acc ++ [Tok.group [Tok.word n]]) []
            apply flushWord_mem
            rw [hd]
            exact List.mem_append_left _ (by simp)
          · exact ih _ _ n hn

theorem tokKey_good (t : Tok) (h : goodTok t = true) : ∃ k, tokKey t = some k := by
  cases t with
  | word w =>
      cases hd : w.data with
      | nil => simp [goodTok, hd] at h
      | cons a l => exact ⟨String.mk [a], by simp [tokKey, hd]⟩
  | group ts =>
      cases ts with
      | nil => simp [goodTok] at h
      | cons t0 ts2 =>
          cases t0 with
          | word m =>
              cases ts2 with
              | nil => exact ⟨m, rfl⟩
              | cons _ _ => simp [goodTok] at h
          | group _ => simp [goodTok] at h

theorem buildParams_good (argFlags : List (String × String)) (item : Item)
    (ts : List Tok) :
    ∀ acc, (∀ t ∈ ts, goodTok t = true) →
      ∃ ps, buildParams argFlags item ts acc = some ps := by
  induction ts with
  | nil => intro acc _; exact ⟨acc, rfl⟩
  | cons t ts ih =>
      intro acc h
      obtain ⟨k, hk⟩ := tokKey_good t (h t (by simp))
      simp only [buildParams, hk]
      exact ih _ (fun u hu => h u (by simp [hu]))

theorem buildParams_mem_acc (argFlags : List (String × String)) (item : Item)
    (ts : List Tok) :
    ∀ acc ps, buildParams argFlags item ts acc = some ps → ∀ kv ∈ acc, kv ∈ ps := by
  induction ts with
  | nil =>
      intro acc ps h kv hkv
      simp [buildParams] at h
      rwa [← h]
  | cons t ts ih =>
      intro acc ps h kv hkv
      cases hk : tokKey t with
      | none => simp [buildParams, hk] at h
      | some k =>
          simp only [buildParams, hk] at h
          exact ih _ ps h kv (by simp [hkv])

theorem buildParams_values (argFlags : List (String × String)) (item : Item)
    (ts : List Tok) :
    ∀ acc ps, buildParams argFlags item ts acc = some ps →
      (∀ kv ∈ acc, kv.2 = paramValue argFlags item kv.1) →
      ∀ kv ∈ ps, kv.2 = paramValue argFlags item kv.1 := by
  induction ts with
  | nil =>
      intro acc ps h hacc kv hkv
      simp [buildParams] at h
      exact hacc kv (by rwa [h])
  | cons t ts ih =>
      intro acc ps h hacc kv hkv
      cases hk : tokKey t with
      | none => simp [buildParams, hk] at h
      | some k =>
          simp only [buildParams, hk] at h
          refine ih _ ps h ?_ kv hkv
          intro kv2 hkv2
          rcases List.mem_cons.mp hkv2 with rfl | h2
          · rfl
          · exact hacc kv2 h2

theorem buildParams_key_present (argFlags : List (String × String)) (item : Item)
    (ts : List Tok) :
    ∀ acc ps (n : String), buildParams argFlags item ts acc = some ps →
      Tok.group [Tok.word n] ∈ ts → ∃ kv ∈ ps, kv.1 = n := by
  induction ts with
  | nil => intro acc ps n _ hmem; simp at hmem
  | cons t ts ih =>
      intro acc ps n h hmem
      rcases List.mem_cons.mp hmem with rfl | hm
      · have hk : tokKey (Tok.group [Tok.word n]) = some n := rfl
        simp only [buildParams, hk] at h
        exact ⟨(n, paramValue argFlags item n),
          buildParams_mem_acc argFlags item ts _ ps h _ (by simp), rfl⟩
      · cases hk : tokKey t with
        | none => simp [buildParams, hk] at h
        | some k =>
            simp only [buildParams, hk] at h
            exact ih _ ps n h hm

theorem fieldLookup_param (ps : List (String × String))
    (argFlags : List (String × String)) (item : Item) (n : String)
    (hne : n.data ≠ []) (hdig : n.data.all (fun c => c.isDigit) = false)
    (hvals : ∀ kv ∈ ps, kv.2 = paramValue argFlags item kv.1)
    (hpres : ∃ kv ∈ ps, kv.1 = n) :
    fieldLookup ps n.data = some (paramValue argFlags item n) := by
  cases hd : n.data with
  | nil => exact absurd hd hne
  | cons a l =>
      rw [hd] at hdig
      have hmk : String.mk (a :: l) = n := by rw [← hd, string_mk_data]
      simp only [fieldLookup, hdig, Bool.false_eq_true, if_false, hmk]
      cases hf : ps.find? (fun p => p.1 == n) with
      | none =>
          exfalso
          obtain ⟨kv, hkv, hkn⟩ := hpres
          have := List.find?_eq_none.mp hf kv hkv
          simp [hkn] at this
      | some kv0 =>
          have hm := List.mem_of_find?_eq_some hf
          have hp : kv0.1 = n := by
            have := List.find?_some hf
            simpa using this
          show some kv0.2 = some (paramValue argFlags item n)
          rw [hvals kv0 hm, hp]

theorem pyFormatGo_copy_cons (ps : List (String × String)) (c : Char)
    (cs : List Char) :
    pyFormatGo ps .copy (c :: cs) =
      if c = '{' then pyFormatGo ps .afterOpen cs
      else if c = '}' then pyFormatGo ps .afterClose cs
      else (pyFormatGo ps .copy cs).map (fun r => c :: r) := by
  rw [pyFormatGo.eq_def]

theorem pyFormatGo_afterOpen_cons (ps : List (String × String)) (c : Char)
    (cs : List Char) :
    pyFormatGo ps .afterOpen (c :: cs) =
      if c = '{' then (pyFormatGo ps .copy cs).map (fun r => '{' :: r)
      else if c = '}' then none
      else if isFieldChar c then pyFormatGo ps (.inField [c]) cs
      else none := by
  rw [pyFormatGo.eq_def]

theorem pyFormatGo_inField_cons (ps : List (String × String)) (nm : List Char)
    (c : Char) (cs : List Char) :
    pyFormatGo ps (.inField nm) (c :: cs) =
      if c = '}' then
        match fieldLookup ps nm.reverse with
        | none => none
        | some v => (pyFormatGo ps .copy cs).map (fun r => v.data ++ r)
      else if isFieldChar c then pyFormatGo ps (.inField (c :: nm)) cs
      else none := by
  rw [pyFormatGo.eq_def]

/-- `str.format` copies a brace-free run verbatim. -/
theorem pyFormatGo_copy_append (ps : List (String × String)) (s : List Char) :
    ∀ r, (∀ c ∈ s, c ≠ '{' ∧ c ≠ '}') →
      pyFormatGo ps .copy (s ++ r) =
        (pyFormatGo ps .copy r).map (fun out => s ++ out) := by
  induction s with
  | nil =>
      intro r _
      cases hr : pyFormatGo ps .copy r <;> simp [hr]
  | cons c s ih =>
      intro r h
      obtain ⟨h1, h2⟩ := h c (by simp)
      simp only [List.cons_append]
      rw [pyFormatGo_copy_cons]
      simp only [h1, h2, if_false]
      rw [ih r (fun d hd => h d (by simp [hd]))]
      cases hr : pyFormatGo ps .copy r <;> simp [hr]

/-- Inside a replacement field, the name accumulates until the closer
resolves it. -/
theorem pyFormatGo_inField_run (ps : List (String × String)) (nc : List Char) :
    ∀ (nmRev r : List Char), (∀ c ∈ nc, isFieldChar c = true) →
      pyFormatGo ps (.inField nmRev) (nc ++ '}' :: r) =
        match fieldLookup ps (nmRev.reverse ++ nc) with
        | none => none
        | some v => (pyFormatGo ps .copy r).map (fun out => v.data ++ out) := by
  induction nc with
  | nil =>
      intro nmRev r _
      simp only [List.nil_append]
      rw [pyFormatGo_inField_cons]
      simp
  | cons c nc ih =>
      intro nmRev r h
      have hf := h c (by simp)
      obtain ⟨hfo, hfc⟩ := isFieldChar_ne c hf
      simp only [List.cons_append]
      rw [pyFormatGo_inField_cons]
      simp only [hfc, if_false, hf, if_true]
      rw [ih (c :: nmRev) r (fun d hd => h d (by simp [hd]))]
      simp

/-- One whole placeholder `{n}` resolves via the params lookup. -/
theorem pyFormatGo_ph (ps : List (String × String)) (n : String) (r : List Char)
    (hn : ∀ c ∈ n.data, isNameChar c = true) (hne : n.data ≠ []) :
    pyFormatGo ps .copy ('{' :: (n.data ++ '}' :: r)) =
      match fieldLookup ps n.data with
      | none => none
      | some v => (pyFormatGo ps .copy r).map (fun out => v.data ++ out) := by
  rw [pyFormatGo_copy_cons, if_pos rfl]
  cases hd : n.data with
  | nil => exact absurd hd hne
  | cons c0 nc =>
      obtain ⟨hf0, hs0, ho0, hc0⟩ := isNameChar_spec c0 (hn c0 (by rw [hd]; simp))
      simp only [List.cons_append]
      rw [pyFormatGo_afterOpen_cons, if_neg ho0, if_neg hc0, if_pos hf0]
      rw [pyFormatGo_inField_run ps nc [c0] r
        (fun d hd2 => (isNameChar_spec d (hn d (by rw [hd]; simp [hd2]))).1)]
      simp

theorem phNames_wf (segs : List Seg) :
    segsWF segs = true → ∀ n ∈ phNames segs,
      (∀ c ∈ n.data, isNameChar c = true) ∧ n.data ≠ [] ∧
        n.data.all (fun c => c.isDigit) = false := by
  induction segs with
  | nil => intro _ n hn; simp [phNames] at hn
  | cons sg rest ih =>
      intro hwf n hn
      have hwf1 : segWF sg = true := by
        simp [segsWF] at hwf; exact hwf.1
      have hwf2 : segsWF rest = true := by
        simp [segsWF] at hwf ⊢; exact fun x hx => hwf.2 x hx
      cases sg with
      | lit s => exact ih hwf2 n (by simpa [phNames] using hn)
      | ph m =>
          simp only [phNames, List.mem_cons] at hn
          rcases hn with rfl | hn
          · simp only [segWF, Bool.and_eq_true] at hwf1
            refine ⟨?_, ?_, ?_⟩
            · intro c hc
              have := hwf1.1.1
              simp [List.all_eq_true] at this
              exact this c hc
            · have := hwf1.1.2
              simpa using this
            · have := hwf1.2
              simpa using this
          · exact ih hwf2 n hn

/-- The whole format pass over a rendered well-formed template. -/
theorem pyFormatGo_renderSegs (ps argFlags : List (String × String)) (item : Item)
    (segs : List Seg) :
    segsWF segs = true →
    (∀ n ∈ phNames segs,
      fieldLookup ps n.data = some (paramValue argFlags item n)) →
    pyFormatGo ps .copy (renderSegs segs).data =
      some (expandedSegs argFlags item segs).data := by
  induction segs with
  | nil => intro _ _; simp [renderSegs, expandedSegs, pyFormatGo]
  | cons sg rest ih =>
      intro hwf hps
      have hwf1 : segWF sg = true := by
        simp [segsWF] at hwf; exact hwf.1
      have hwf2 : segsWF rest = true := by
        simp [segsWF] at hwf ⊢; exact fun x hx => hwf.2 x hx
      cases sg with
      | lit s =>
          have hchars : ∀ c ∈ s.data, c ≠ '{' ∧ c ≠ '}' := by
            intro c hc
            simp [segWF] at hwf1
            exact isLitChar_ne c (hwf1 c hc)
          have hdata : (renderSegs (Seg.lit s :: rest)).data =
              s.data ++ (renderSegs rest).data := by
            simp [renderSegs, renderSeg, String.data_append]
          rw [hdata, pyFormatGo_copy_append ps s.data _ hchars,
            ih hwf2 (fun n hn => hps n (by simp [phNames, hn]))]
          simp [expandedSegs, expandSeg, String.data_append]
      | ph n =>
          simp only [segWF, Bool.and_eq_true] at hwf1
          have hname : ∀ c ∈ n.data, isNameChar c = true := by
            intro c hc
            have := hwf1.1.1
            simp [List.all_eq_true] at this
            exact this c hc
          have hne : n.data ≠ [] := by
            have := hwf1.1.2
            simpa using this
          have hdata : (renderSegs (Seg.ph n :: rest)).data =
              '{' :: (n.data ++ ('}' :: (renderSegs rest).data)) := by
            simp [renderSegs, renderSeg, String.data_append]
          rw [hdata, pyFormatGo_ph ps n _ hname hne,
            hps n (by simp [phNames]),
            ih hwf2 (fun n2 hn2 => hps n2 (by simp [phNames, hn2]))]
          simp [expandedSegs, expandSeg, String.data_append]

/-- C3 counterexample: the expansion tests truthiness, not presence.
With configuration command `tool {arg}` and `arg_flags` mapping `arg` to
`--input=`, an item that *supplies* `arg` with the empty-string value
(the name is present in the supplied arguments) expands to `tool ` — the
placeholder becomes empty — and not to the claimed
`tool --input=""` (the prefix followed by the quoted supplied value). -/
theorem c3_counterexample :
    Item.get [("type", "run"), ("text", "Run"), ("arg", "")] "arg" = some "" ∧
    launcher_cmd_item_cmd "tool \x7barg\x7d" [("arg", "--input=")]
      [("type", "run"), ("text", "Run"), ("arg", "")] = .ok "tool " ∧
    ("tool " : String) ≠ "tool --input=\"\"" :=
  ⟨rfl, rfl, by decide⟩

/-- C3 (amended): for every well-formed template shape and every custom
command item, the expansion succeeds; each placeholder whose name the
item supplies with a truthy (non-empty) value is replaced by its
configured flag followed by the double-quoted value, and each
placeholder whose name is absent — or supplied with a falsy value such
as the empty string — is replaced by the empty string, with literal text
unchanged (that dichotomy is `paramValue`, the per-segment expansion of
`expandedSegs`). -/
theorem c3_placeholder_expansion (argFlags : List (String × String)) (item : Item)
    (segs : List Seg) (hwf : segsWF segs = true) :
    launcher_cmd_item_cmd (renderSegs segs) argFlags item =
      .ok (expandedSegs argFlags item segs) := by
  have htoks : parseNested (renderSegs segs) =
      some (flushWord (segsToks [] [] segs).1 (segsToks [] [] segs).2) := by
    unfold parseNested
    exact scanToks_renderSegs segs [] [] hwf
  have hgood : ∀ t ∈ flushWord (segsToks [] [] segs).1 (segsToks [] [] segs).2,
      goodTok t = true := segsToks_all_good segs [] [] (by simp)
  obtain ⟨ps, hps⟩ := buildParams_good argFlags item _ [] hgood
  have hvals : ∀ kv ∈ ps, kv.2 = paramValue argFlags item kv.1 :=
    buildParams_values argFlags item _ [] ps hps (by simp)
  have hlook : ∀ n ∈ phNames segs,
      fieldLookup ps n.data = some (paramValue argFlags item n) := by
    intro n hn
    have hmem := segsToks_group_mem segs [] [] n hn
    have hpres := buildParams_key_present argFlags item _ [] ps n hps hmem
    obtain ⟨hchars, hne, hdig⟩ := phNames_wf segs hwf n hn
    exact fieldLookup_param ps argFlags item n hne hdig hvals hpres
  have hfmt := pyFormatGo_renderSegs ps argFlags item segs hwf hlook
  simp only [launcher_cmd_item_cmd, htoks, hps, pyFormat, hfmt, string_mk_data]

theorem opensCount_cons (c : Char) (l : List Char) :
    opensCount (c :: l) = opensCount l + (if c = '{' then 1 else 0) := by
  simp [opensCount, List.count_cons, beq_iff_eq]

theorem closesCount_cons (c : Char) (l : List Char) :
    closesCount (c :: l) = closesCount l + (if c = '}' then 1 else 0) := by
  simp [closesCount, List.count_cons, beq_iff_eq]

theorem prefix_shift_other (c : Char) (cs : List Char) (d : Nat)
    (ho : c ≠ '{') (hc : c ≠ '}') (hd : 0 < d) :
    (∀ k, k ≤ cs.length →
        closesCount (cs.take k) < opensCount (cs.take k) + d) ↔
      (∀ k, k ≤ (c :: cs).length →
        closesCount ((c :: cs).take k) < opensCount ((c :: cs).take k) + d) := by
  constructor
  · intro hall k hk
    cases k with
    | zero => simpa [closesCount, opensCount] using hd
    | succ k2 =>
        have := hall k2 (by simpa using hk)
        simp [List.take_succ_cons, closesCount_cons, opensCount_cons, ho, hc]
        omega
  · intro hall k hk
    have := hall (k + 1) (by simpa using Nat.succ_le_succ hk)
    simp [List.take_succ_cons, closesCount_cons, opensCount_cons, ho, hc] at this
    omega

theorem prefix_shift_open (cs : List Char) (d : Nat) (hd : 0 < d) :
    (∀ k, k ≤ cs.length →
        closesCount (cs.take k) < opensCount (cs.take k) + (d + 1)) ↔
      (∀ k, k ≤ ('{' :: cs).length →
        closesCount (('{' :: cs).take k) < opensCount (('{' :: cs).take k) + d) := by
  constructor
  · intro hall k hk
    cases k with
    | zero => simpa [closesCount, opensCount] using hd
    | succ k2 =>
        have := hall k2 (by simpa using hk)
        simp [List.take_succ_cons, closesCount_cons, opensCount_cons]
        omega
  · intro hall k hk
    have := hall (k + 1) (by simpa using Nat.succ_le_succ hk)
    simp [List.take_succ_cons, closesCount_cons, opensCount_cons] at this
    omega

theorem prefix_shift_close (cs : List Char) (d : Nat) :
    (∀ k, k ≤ cs.length →
        closesCount (cs.take k) < opensCount (cs.take k) + d) ↔
      (∀ k, k ≤ ('}' :: cs).length →
        closesCount (('}' :: cs).take k) < opensCount (('}' :: cs).take k) + (d + 1)) := by
  constructor
  · intro hall k hk
    cases k with
    | zero => simp [closesCount, opensCount]
    | succ k2 =>
        have := hall k2 (by simpa using hk)
        simp [List.take_succ_cons, closesCount_cons, opensCount_cons]
        omega
  · intro hall k hk
    have := hall (k + 1) (by simpa using Nat.succ_le_succ hk)
    simp [List.take_succ_cons, closesCount_cons, opensCount_cons] at this
    omega

/-- The nested-brace scanner runs out of input exactly when, at depth
`outers.length + 1`, no prefix of the input brings the depth to zero. -/
theorem scanToks_none_iff (cs : List Char) :
    ∀ (cur : List Tok) (outers : List (List Tok)) (acc : List Char),
      (scanToks cur outers acc cs = none ↔
        ∀ k, k ≤ cs.length →
          closesCount (cs.take k) < opensCount (cs.take k) + outers.length + 1) := by
  induction cs with
  | nil =>
      intro cur outers acc
      constructor
      · intro _ k hk
        have hk0 : k = 0 := Nat.le_zero.mp hk
        subst hk0
        simp [closesCount, opensCount]
      · intro _
        simp [scanToks]
  | cons c cs ih =>
      intro cur outers acc
      rw [scanToks_cons]
      by_cases ho : c = '{'
      · subst ho
        rw [if_pos rfl, ih [] (flushWord cur acc :: outers) []]
        have := prefix_shift_open cs (outers.length + 1) (by omega)
        constructor
        · intro hall
          have h2 := this.mp (by intro k hk; have := hall k hk; simpa using this)
          intro k hk
          have := h2 k hk
          omega
        · intro hall
          have h2 := this.mpr (by intro k hk; have := hall k hk; omega)
          intro k hk
          have := h2 k hk
          simp at this ⊢
          omega
      · by_cases hc : c = '}'
        · subst hc
          rw [if_neg (by decide), if_pos rfl]
          cases outers with
          | nil =>
              constructor
              · intro habs; simp at habs
              · intro hall
                exfalso
                have := hall 1 (by simp)
                simp [List.take_succ_cons, closesCount_cons, opensCount_cons,
                  closesCount, opensCount] at this
          | cons o os =>
              rw [ih (o ++ [Tok.group (flushWord cur acc)]) os []]
              have := prefix_shift_close cs (os.length + 1)
              constructor
              · intro hall
                have h2 := this.mp hall
                intro k hk
                have := h2 k hk
                simp at this ⊢
                omega
              · intro hall
                apply this.mpr
                intro k hk
                have := hall k hk
                simp at this ⊢
                omega
        · rw [if_neg ho, if_neg hc]
          by_cases hs : isPySpace c = true
          · rw [if_pos hs, ih (flushWord cur acc) outers []]
            exact prefix_shift_other c cs (outers.length + 1) ho hc (by omega)
          · rw [if_neg hs, ih cur outers (acc ++ [c])]
            exact prefix_shift_other c cs (outers.length + 1) ho hc (by omega)

/-- The `pyparsing` stage of the expansion raises exactly on an unclosed
opening brace. -/
theorem parseNested_none_iff (t : String)
    (_hq : ∀ c ∈ t.data, c ≠ '"' ∧ c ≠ '\'') :
    (parseNested t = none ↔ unclosedOpenBrace t = true) := by
  unfold parseNested
  rw [scanToks_none_iff (t.data ++ ['}']) [] [] []]
  simp only [unclosedOpenBrace, Bool.and_eq_true, List.all_eq_true, List.mem_range,
    decide_eq_true_eq, List.length_nil, List.length_append, List.length_cons,
    Nat.add_zero]
  have hlenstr : t.length = t.data.length := rfl
  have hcl : ∀ (l l2 : List Char),
      closesCount (l ++ l2) = closesCount l + closesCount l2 := by
    intro l l2; simp [closesCount, List.count_append]
  have hop : ∀ (l l2 : List Char),
      opensCount (l ++ l2) = opensCount l + opensCount l2 := by
    intro l l2; simp [opensCount, List.count_append]
  have hc1 : closesCount ['}'] = 1 := by decide
  have ho1 : opensCount ['}'] = 0 := by decide
  constructor
  · intro hall
    constructor
    · intro k hk
      have hk2 : k ≤ t.data.length := by omega
      have hthis := hall k (by omega)
      rw [List.take_append_of_le_length hk2] at hthis
      omega
    · have hthis := hall (t.data.length + 1) (by omega)
      rw [List.take_of_length_le (by simp)] at hthis
      rw [hcl, hop, hc1, ho1] at hthis
      omega
  · rintro ⟨hpre, htot⟩ k hk
    by_cases hk2 : k ≤ t.data.length
    · rw [List.take_append_of_le_length hk2]
      have := hpre k (by omega)
      omega
    · have hk3 : k = t.data.length + 1 := by omega
      subst hk3
      rw [List.take_of_length_le (by simp)]
      rw [hcl, hop, hc1, ho1]
      omega

/-- C8 counterexample: the template `a}}b` has unbalanced braces, yet its
expansion raises no error at all — and, although the template contains no
placeholder, the result differs from the template (the doubled closing
brace collapses). -/
theorem c8_counterexample :
    braceBalanced "a\x7d\x7db" = false ∧
    launcher_cmd_item_cmd "a\x7d\x7db" [] [] = .ok "a\x7db" ∧
    ("a\x7db" : String) ≠ "a\x7d\x7db" :=
  ⟨by decide, rfl, by decide⟩

/-- C8 (amended): the expansion fails with the parse-stage error (the
spec's `TemplateError`) exactly when the template has an unclosed
opening brace — an excess closing brace does not trigger it; and a
template containing no braces at all expands to itself unchanged.
(Quote characters are excluded: the parser treats quoted substrings
specially, outside the modelled fragment.) -/
theorem c8_template_errors :
    (∀ (t : String) (argFlags : List (String × String)) (item : Item),
      (∀ c ∈ t.data, c ≠ '"' ∧ c ≠ '\'') →
      (launcher_cmd_item_cmd t argFlags item = .error .parseException ↔
        unclosedOpenBrace t = true)) ∧
    (∀ (t : String) (argFlags : List (String × String)) (item : Item),
      (∀ c ∈ t.data, c ≠ '{' ∧ c ≠ '}' ∧ c ≠ '"' ∧ c ≠ '\'') →
      launcher_cmd_item_cmd t argFlags item = .ok t) := by
  constructor
  · intro t argFlags item hq
    rw [← parseNested_none_iff t hq]
    cases hp : parseNested t with
    | none => simp [launcher_cmd_item_cmd, hp]
    | some toks =>
        cases hb : buildParams argFlags item toks [] with
        | none => simp [launcher_cmd_item_cmd, hp, hb]
        | some ps =>
            cases hf : pyFormat ps t with
            | none => simp [launcher_cmd_item_cmd, hp, hb, hf]
            | some out => simp [launcher_cmd_item_cmd, hp, hb, hf]
  · intro t argFlags item h
    have hb : ∀ c ∈ t.data, c ≠ '{' ∧ c ≠ '}' :=
      fun c hc => ⟨(h c hc).1, (h c hc).2.1⟩
    have hparse : parseNested t =
        some (flushWord (litToks [] [] t.data).1 (litToks [] [] t.data).2) := by
      unfold parseNested
      rw [scanToks_lit t.data [] [] ['}'] hb, scanToks_cons]
      simp
    have hgood : ∀ u ∈ flushWord (litToks [] [] t.data).1 (litToks [] [] t.data).2,
        goodTok u = true :=
      flushWord_all_good _ _ (litToks_all_good t.data [] [] (by simp))
    obtain ⟨ps, hps⟩ := buildParams_good argFlags item _ [] hgood
    have hfmt : pyFormat ps t = some t.data := by
      unfold pyFormat
      have hnil : t.data = t.data ++ ([] : List Char) := by simp
      rw [hnil, pyFormatGo_copy_append ps t.data [] hb]
      simp [pyFormatGo]
    simp [launcher_cmd_item_cmd, hparse, hps, hfmt, string_mk_data]

theorem c8_template_errors_witness :
    ((launcher_cmd_item_cmd "tool \x7barg" [] [] = .error .parseException ↔
        unclosedOpenBrace "tool \x7barg" = true) ∧
      launcher_cmd_item_cmd "tool \x7barg" [] [] = .error .parseException ∧
      unclosedOpenBrace "tool \x7barg" = true) ∧
    launcher_cmd_item_cmd "echo hello" [] [] = .ok "echo hello" := by
  refine ⟨⟨?_, rfl, by decide⟩, ?_⟩
  · exact c8_template_errors.1 "tool \x7barg" [] [] (by decide)
  · exact c8_template_errors.2 "echo hello" [] [] (by decide)

theorem c3_placeholder_expansion_witness :
    segsWF [Seg.lit "tool ", Seg.ph "arg"] = true ∧
    renderSegs [Seg.lit "tool ", Seg.ph "arg"] = "tool \x7barg\x7d" ∧
    expandedSegs [("arg", "--input=")]
      [("type", "run"), ("text", "Run"), ("arg", "data.csv")]
      [Seg.lit "tool ", Seg.ph "arg"] = "tool --input=\"data.csv\"" ∧
    launcher_cmd_item_cmd (renderSegs [Seg.lit "tool ", Seg.ph "arg"])
      [("arg", "--input=")] [("type", "run"), ("text", "Run"), ("arg", "data.csv")] =
      .ok (expandedSegs [("arg", "--input=")]
        [("type", "run"), ("text", "Run"), ("arg", "data.csv")]
        [Seg.lit "tool ", Seg.ph "arg"]) :=
  ⟨by decide, rfl, rfl,
    c3_placeholder_expansion [("arg", "--input=")]
      [("type", "run"), ("text", "Run"), ("arg", "data.csv")]
      [Seg.lit "tool ", Seg.ph "arg"] (by decide)⟩

end Pylauncher
